import Mathlib

/-
  Verification development for the TraceBridge AI document indexing core.

  The development shallowly embeds the three algorithmic components of the
  repository — the vector store (`src/backend/app/services/vector_store.py`),
  the text chunker (`src/backend/app/services/chunker.py`, plus the older
  variant in `src/app/services/chunker.py`), and the persistence snapshot —
  and proves or refutes the frozen specification claims about them.

  Modelling conventions:
  * Python `dict`s become association lists with Python's insertion-order
    update semantics (`dictInsert` updates in place, appends fresh keys).
  * Python metadata values (`Any`) become the inductive `MValue`
    (strings, integers, and lists thereof — the value shapes the
    application stores and filters on).
  * Python floats become real numbers; `numpy` dot/norm are the exact
    real dot product and Euclidean norm.
  * Python's stable ascending `list.sort(key=...)` becomes a stable
    insertion sort by key (stable ascending sorts are extensionally unique).
  * Python strings become `List Char`; `str.strip`, slicing and
    `str.rfind(sub, start, end)` are modelled exactly.
  * The chunking `while` loop is modelled with explicit fuel; fuel
    exhaustion (`none`) models divergence.
-/

namespace TraceBridge

/-! ## Python-like metadata values and dictionaries -/

/-- A Python value as stored in chunk metadata dictionaries and used in
`where` filters: strings, integers, or (possibly nested) lists. -/
inductive MValue where
  | str : String → MValue
  | int : Int → MValue
  | list : List MValue → MValue

mutual

/-- Structural equality of Python metadata values (Python `==` on the value
shapes in scope: distinct types are unequal, lists compare elementwise). -/
def MValue.beq : MValue → MValue → Bool
  | .str a, .str b => a == b
  | .int a, .int b => a == b
  | .list a, .list b => MValue.beqList a b
  | _, _ => false

/-- Elementwise equality of lists of Python metadata values. -/
def MValue.beqList : List MValue → List MValue → Bool
  | [], [] => true
  | a :: as, b :: bs => MValue.beq a b && MValue.beqList as bs
  | _, _ => false

end

mutual

theorem MValue.beq_iff : ∀ a b : MValue, MValue.beq a b = true ↔ a = b
  | .str a, .str b => by simp [MValue.beq]
  | .str _, .int _ => by simp [MValue.beq]
  | .str _, .list _ => by simp [MValue.beq]
  | .int _, .str _ => by simp [MValue.beq]
  | .int a, .int b => by simp [MValue.beq]
  | .int _, .list _ => by simp [MValue.beq]
  | .list _, .str _ => by simp [MValue.beq]
  | .list _, .int _ => by simp [MValue.beq]
  | .list a, .list b => by
      rw [MValue.beq]
      rw [MValue.beqList_iff a b]
      simp

theorem MValue.beqList_iff : ∀ as bs : List MValue, MValue.beqList as bs = true ↔ as = bs
  | [], [] => by simp [MValue.beqList]
  | [], _ :: _ => by simp [MValue.beqList]
  | _ :: _, [] => by simp [MValue.beqList]
  | a :: as, b :: bs => by
      rw [MValue.beqList, Bool.and_eq_true, MValue.beq_iff a b, MValue.beqList_iff as bs]
      simp

end

instance : BEq MValue := ⟨MValue.beq⟩

instance : LawfulBEq MValue where
  eq_of_beq h := (MValue.beq_iff _ _).1 h
  rfl := (MValue.beq_iff _ _).2 rfl

instance : DecidableEq MValue := fun a b =>
  decidable_of_iff (MValue.beq a b = true) (MValue.beq_iff a b)

/-- A metadata record: a Python dict from field names to values. -/
abbrev Metadata := List (String × MValue)

/-- A `where` filter: a Python dict from field names to expected values. -/
abbrev Filter := List (String × MValue)

/-- The key list of an association-list dictionary. -/
def keys (m : List (String × α)) : List String := m.map Prod.fst

/-- Python dict assignment `m[k] = v`: update the value in place if the key
exists (keeping its position), otherwise append the new binding. -/
def dictInsert (m : List (String × α)) (k : String) (v : α) : List (String × α) :=
  if (m.lookup k).isSome then m.map (fun p => if p.1 = k then (k, v) else p)
  else m ++ [(k, v)]

/-! ## `SimpleVectorStore._matches_filter` (backend vector_store.py, lines 67–83) -/

/-- One field check of `_matches_filter`: for a list-valued metadata field
Python tests membership (`value not in meta_value`), otherwise exact
equality (`meta_value != value`). -/
def matchesValue (mv v : MValue) : Bool :=
  match mv with
  | .list l => l.contains v
  | _ => decide (mv = v)

/-- `SimpleVectorStore._matches_filter(metadata, where)`: every filter key
must be present in the metadata and its value must pass `matchesValue`. -/
def matches_filter (metadata : Metadata) (w : Filter) : Bool :=
  w.all fun p =>
    match metadata.lookup p.1 with
    | none => false
    | some mv => matchesValue mv p.2

/-! ## The store state and its operations -/

/-- The state of `SimpleVectorStore`: the configured persistence location and
the three parallel mappings keyed by chunk id. -/
structure Store where
  persist_path : String
  documents : List (String × String)
  embeddings : List (String × List ℝ)
  metadatas : List (String × Metadata)

/-- The loop body of `SimpleVectorStore.add`: insert one
(id, document, embedding, metadata) record into the three mappings. -/
def addRecord (S : Store) (r : String × String × List ℝ × Metadata) : Store :=
  { S with
    documents := dictInsert S.documents r.1 r.2.1
    embeddings := dictInsert S.embeddings r.1 r.2.2.1
    metadatas := dictInsert S.metadatas r.1 r.2.2.2 }

/-- `SimpleVectorStore.add(ids, documents, embeddings, metadatas)`.
Python iterates over `ids` and indexes the other three arrays at each
position, raising `IndexError` (modelled as `none`) when one of them is
shorter than `ids`; surplus entries are ignored. -/
def add (S : Store) (ids : List String) (docs : List String)
    (embs : List (List ℝ)) (metas : List Metadata) : Option Store :=
  if ids.length ≤ docs.length ∧ ids.length ≤ embs.length ∧ ids.length ≤ metas.length then
    some ((ids.zip (docs.zip (embs.zip metas))).foldl addRecord S)
  else none

/-- The result dictionary of `SimpleVectorStore.get`: Python replaces empty
`documents`/`metadatas` result lists by `None`. -/
structure GetResult where
  ids : List String
  documents : Option (List String)
  metadatas : Option (List Metadata)

/-- The `include is None or field in include` test of `get`. -/
def includeField (incl : Option (List String)) (field : String) : Bool :=
  match incl with
  | none => true
  | some l => l.contains field

/-- The record-selection predicate shared by `get` and `query`:
`where is None or self._matches_filter(metadata, where)`. -/
def selectedBy (w : Option Filter) (m : Metadata) : Bool :=
  match w with
  | none => true
  | some w' => matches_filter m w'

/-- `SimpleVectorStore.get(where, include)`: iterate over `metadatas`, keep
records passing the filter, and report their ids (and texts / metadata when
included), with empty lists collapsed to `None`. -/
def get (S : Store) (w : Option Filter) (incl : Option (List String)) : GetResult :=
  let sel := S.metadatas.filter fun p => selectedBy w p.2
  let ids := sel.map Prod.fst
  let docs := if includeField incl "documents" then
      ids.map fun id => (S.documents.lookup id).getD "" else []
  let metas := if includeField incl "metadatas" then sel.map Prod.snd else []
  { ids := ids
    documents := if docs = [] then none else some docs
    metadatas := if metas = [] then none else some metas }

/-- `SimpleVectorStore.delete(where)`: collect the ids of records matching
the filter, remove them from all three mappings, and return the new state
together with the removed count. -/
def delete (S : Store) (w : Filter) : Store × Nat :=
  let toDelete := (S.metadatas.filter fun p => matches_filter p.2 w).map Prod.fst
  ({ S with
      documents := S.documents.filter fun p => !toDelete.contains p.1
      embeddings := S.embeddings.filter fun p => !toDelete.contains p.1
      metadatas := S.metadatas.filter fun p => !toDelete.contains p.1 },
   toDelete.length)

/-! ## Cosine distance and `SimpleVectorStore.query` -/

/-- `np.dot` on equal-length vectors: the real dot product. -/
def dotProd (a b : List ℝ) : ℝ := (a.zipWith (· * ·) b).sum

/-- `np.linalg.norm`: the Euclidean norm. -/
noncomputable def euclNorm (a : List ℝ) : ℝ := Real.sqrt (a.map fun x => x * x).sum

/-- The cosine distance computed in `query`:
`1 - np.dot(q, e) / (np.linalg.norm(q) * np.linalg.norm(e) + 1e-8)`. -/
noncomputable def cosineDist (q e : List ℝ) : ℝ :=
  1 - dotProd q e / (euclNorm q * euclNorm e + 1e-8)

/-- Insert an element into a list already sorted (ascending, stable) by
`key`: the element goes after every earlier element of equal key. -/
noncomputable def insertKeyed (key : α → ℝ) (x : α) : List α → List α
  | [] => [x]
  | y :: ys =>
    have := Real.decidableLT
    if key x < key y then x :: y :: ys else y :: insertKeyed key x ys

/-- Python's stable ascending `list.sort(key=...)`, realized as insertion
sort (the stable ascending sort of a list is unique, so any correct stable
sort is an exact model). -/
noncomputable def sortByKey (key : α → ℝ) (l : List α) : List α :=
  l.foldl (fun acc x => insertKeyed key x acc) []

/-- The result dictionary of `SimpleVectorStore.query`: four parallel
singly-nested lists. -/
structure QueryResult where
  ids : List (List String)
  documents : List (List String)
  metadatas : List (List Metadata)
  distances : List (List ℝ)

/-- The empty query result `{"ids": [[]], "documents": [[]], ...}`. -/
def emptyQueryResult : QueryResult := ⟨[[]], [[]], [[]], [[]]⟩

/-- `SimpleVectorStore.query(query_embeddings, n_results, where)` (the
`include` argument is accepted but unused by the Python code): return the
empty result on an empty store; otherwise select candidate ids by filter,
score each with the cosine distance to `query_embeddings[0]`, sort
ascending by distance, truncate to `n_results`, and assemble the four
parallel result lists. -/
noncomputable def query (S : Store) (query_embeddings : List (List ℝ))
    (n_results : Nat) (w : Option Filter) : QueryResult :=
  if S.embeddings = [] then emptyQueryResult
  else
    let q := query_embeddings.headD []
    let candidates := (S.metadatas.filter fun p => selectedBy w p.2).map Prod.fst
    if candidates = [] then emptyQueryResult
    else
      let distances := candidates.map fun id =>
        (id, cosineDist q ((S.embeddings.lookup id).getD []))
      let sorted := sortByKey (fun p => p.2) distances
      let top := sorted.take n_results
      let resultIds := top.map Prod.fst
      { ids := [resultIds]
        documents := [resultIds.map fun id => (S.documents.lookup id).getD ""]
        metadatas := [resultIds.map fun id => (S.metadatas.lookup id).getD []]
        distances := [top.map Prod.snd] }

/-- The query pipeline exactly as the specification words it: select the
records whose metadata matches the filter, assign each the cosine distance
to the query embedding, sort ascending by that distance, and return the
first `k` as an ordered sequence of (id, text, metadata, distance). -/
noncomputable def querySpec (S : Store) (q : List ℝ) (k : Nat) (w : Option Filter) :
    List (String × String × Metadata × ℝ) :=
  let records := S.metadatas.filter fun p => selectedBy w p.2
  let scored := records.map fun p =>
    (p.1, (S.documents.lookup p.1).getD "", p.2,
     cosineDist q ((S.embeddings.lookup p.1).getD []))
  (sortByKey (fun r => r.2.2.2) scored).take k

/-! ## Persistence (`_save` / `_load`) -/

/-- The snapshot object pickled by `_save`: a dictionary holding the three
mappings under the keys "documents", "embeddings" and "metadatas" (the
byte-level pickle encoding is the Python standard library's and is modelled
as the identity on this record). -/
structure PersistData where
  documents : List (String × String)
  embeddings : List (String × List ℝ)
  metadatas : List (String × Metadata)

/-- `SimpleVectorStore._save`: serialize the full state. -/
def storeSave (S : Store) : PersistData :=
  { documents := S.documents, embeddings := S.embeddings, metadatas := S.metadatas }

/-- `SimpleVectorStore._load` on a present, well-formed snapshot file: a
freshly constructed store takes each mapping from the snapshot
(`data.get("documents", {})` and so on). -/
def storeLoad (persist_path : String) (d : PersistData) : Store :=
  { persist_path := persist_path
    documents := d.documents
    embeddings := d.embeddings
    metadatas := d.metadatas }

/-! ## Operation sequences (for the key-set invariant claim) -/

/-- One mutation of the store: an `add` call or a `delete` call. -/
inductive StoreOp where
  | addOp (ids : List String) (docs : List String)
      (embs : List (List ℝ)) (metas : List Metadata)
  | delOp (w : Filter)

/-- Apply one operation; an `add` with too-short argument arrays fails. -/
def applyOp (S : Store) : StoreOp → Option Store
  | .addOp ids docs embs metas => add S ids docs embs metas
  | .delOp w => some (delete S w).1

/-- Apply a sequence of operations left to right. -/
def applyOps (S : Store) : List StoreOp → Option Store
  | [] => some S
  | op :: ops => (applyOp S op).bind fun S' => applyOps S' ops

/-- The store's core invariant: the three mappings have exactly the same
key set. -/
def sameKeys (S : Store) : Prop :=
  (∀ k, k ∈ keys S.documents ↔ k ∈ keys S.embeddings) ∧
  (∀ k, k ∈ keys S.documents ↔ k ∈ keys S.metadatas)

/-! ## The text chunker (`chunk_text`)

Python strings are modelled as `List Char`; indices are absolute `Nat`
positions. `str.strip()` removes the ASCII whitespace characters Python
strips; `text[start:end]` clamps; `str.rfind(sub, start, end)` returns the
largest `i` with `start ≤ i` and `sub` occurring fully inside
`text[start:end]`, or `none` (Python's `-1`, always compared against
non-negative bounds in this code). -/

/-- The whitespace characters removed by Python `str.strip()`. -/
def isPySpace (c : Char) : Bool :=
  c = ' ' || c = '\t' || c = '\n' || c = '\x0d' || c = '\x0b' || c = '\x0c'

/-- Python `str.strip()`. -/
def pstrip (l : List Char) : List Char :=
  ((l.dropWhile isPySpace).reverse.dropWhile isPySpace).reverse

/-- Python slice `text[s:e]` (clamping, empty when `e ≤ s`). -/
def pslice (l : List Char) (s e : Nat) : List Char := (l.take e).drop s

/-- Whether `sub` occurs in `l` starting at absolute position `i`. -/
def occursAt (l sub : List Char) (i : Nat) : Bool :=
  decide (pslice l i (i + sub.length) = sub)

/-- Python `text.rfind(sub, s, e)`: the largest admissible occurrence
position, or `none` for Python's `-1`. -/
def rfind (l sub : List Char) (s e : Nat) : Option Nat :=
  (List.range (min e l.length + 1)).reverse.find? fun i =>
    decide (s ≤ i) && decide (i + sub.length ≤ min e l.length) && occursAt l sub i

/-- The sentence separators tried in order by the chunker. -/
def sentenceSeps : List (List Char) :=
  [['.', ' '], ['.', '\n'], ['!', ' '], ['!', '\n'], ['?', ' '], ['?', '\n']]

/-- The `for sep in [...]` loop of the chunker: the first separator kind
whose last occurrence in `[lo, e)` lies strictly past `start` decides the
cut (just after the separator); otherwise fall through. -/
def findSentBreak (text : List Char) (lo e start : Nat) : List (List Char) → Option Nat
  | [] => none
  | sep :: rest =>
    match rfind text sep lo e with
    | some i => if start < i then some (i + sep.length) else findSentBreak text lo e start rest
    | none => findSentBreak text lo e start rest

/-- The sentence/word tiers of the boundary search (the `else` of the
paragraph tier): try sentence separators, then the last space, each
restricted to `[start + cs/2, e)`; keep `e` if nothing qualifies. -/
def sentenceOrWordEnd (text : List Char) (cs start e : Nat) : Nat :=
  match findSentBreak text (start + cs / 2) e start sentenceSeps with
  | some e2 => e2
  | none =>
    match rfind text [' '] (start + cs / 2) e with
    | some i => if start < i then i + 1 else e
    | none => e

/-- The full window-end computation of one loop iteration: the window end
starts at `start + cs`; if that is inside the text, shrink to just after
the last paragraph break past the window midpoint, else to a sentence or
word break. -/
def computeEnd (text : List Char) (cs start : Nat) : Nat :=
  if start + cs < text.length then
    match rfind text ['\n', '\n'] start (start + cs) with
    | some i =>
      if start + cs / 2 < i then i + 2
      else sentenceOrWordEnd text cs start (start + cs)
    | none => sentenceOrWordEnd text cs start (start + cs)
  else start + cs

/-- Append the freshly cut chunk to the accumulator, skipping it when it
strips to nothing (`if chunk: chunks.append(chunk)`). -/
def emitChunk (acc : List (List Char)) (chunk : List Char) : List (List Char) :=
  if chunk = [] then acc else acc ++ [chunk]

/-- The next window start: `end - overlap`, or `end` itself when that
would not advance past the current start (the progress guard of the
backend chunker). -/
def nextStart (e ov start : Nat) : Nat :=
  if e - ov ≤ start then e else e - ov

/-- The chunking `while` loop (backend `chunker.py`, lines 46–82), with
explicit fuel; returns the emitted chunks and the number of loop iterations
executed, or `none` on fuel exhaustion (modelling divergence). -/
def chunkLoop (text : List Char) (cs ov : Nat) :
    Nat → Nat → List (List Char) → Option (List (List Char) × Nat)
  | 0, _, _ => none
  | fuel + 1, start, acc =>
    if start < text.length then
      match chunkLoop text cs ov fuel (nextStart (computeEnd text cs start) ov start)
          (emitChunk acc (pstrip (pslice text start (computeEnd text cs start)))) with
      | some (r, n) => some (r, n + 1)
      | none => none
    else some (acc, 0)

/-- `chunk_text(text, chunk_size, chunk_overlap)` (backend `chunker.py`):
empty or whitespace-only text yields `[]`; text no longer than the chunk
size yields the single trimmed chunk; otherwise run the chunking loop
(fuel `length + 1` iterations; the default `[]` on exhaustion is never
reached for `chunk_size ≥ 1`). -/
def chunk_text (text : List Char) (cs ov : Nat) : List (List Char) :=
  if text = [] ∨ pstrip text = [] then []
  else if (pstrip text).length ≤ cs then [pstrip text]
  else
    match chunkLoop (pstrip text) cs ov ((pstrip text).length + 1) 0 [] with
    | some (r, _) => r
    | none => []

/-- The number of `while`-loop iterations `chunk_text` executes (`some 0`
on the early-return paths, `none` if the loop would exceed
`length + 1` iterations). -/
def chunkTextIters (text : List Char) (cs ov : Nat) : Option Nat :=
  if text = [] ∨ pstrip text = [] then some 0
  else if (pstrip text).length ≤ cs then some 0
  else (chunkLoop (pstrip text) cs ov ((pstrip text).length + 1) 0 []).map Prod.snd

/-! ## The older chunker variant (`src/app/services/chunker.py`)

Identical to the backend chunker except for its progress guard
(lines 76–78): `if start <= chunks[-1] if chunks else 0:`. When `chunks`
is non-empty this evaluates `start <= chunks[-1]`, an `int <= str`
comparison, which raises `TypeError` in Python 3; when `chunks` is empty
the condition is the falsy constant `0` and `start` keeps the value
`end - chunk_overlap`. -/

/-- A raised Python exception (or exhausted fuel, modelling divergence). -/
inductive PyErr where
  | typeError
  | fuelExhausted
deriving DecidableEq

/-- The chunking loop of the older `src/app` chunker: the boundary search
and chunk emission are identical to the backend loop, but once any chunk
has been emitted the progress guard's `int <= str` comparison raises. -/
def appChunkLoop (text : List Char) (cs ov : Nat) :
    Nat → Nat → List (List Char) → Except PyErr (List (List Char))
  | 0, _, _ => .error .fuelExhausted
  | fuel + 1, start, acc =>
    if start < text.length then
      if emitChunk acc (pstrip (pslice text start (computeEnd text cs start))) = [] then
        appChunkLoop text cs ov fuel (computeEnd text cs start - ov)
          (emitChunk acc (pstrip (pslice text start (computeEnd text cs start))))
      else .error .typeError
    else .ok acc

/-- `chunk_text` of the older `src/app/services/chunker.py`. -/
def appChunkText (text : List Char) (cs ov : Nat) : Except PyErr (List (List Char)) :=
  if text = [] ∨ pstrip text = [] then .ok []
  else if (pstrip text).length ≤ cs then .ok [pstrip text]
  else appChunkLoop (pstrip text) cs ov ((pstrip text).length + 1) 0 []

/-! ## Spec-side filter conditions (for comparison with `_matches_filter`) -/

/-- The filter-matching condition exactly as the specification words it: a
record matches iff, for every filter key, either the record's field is a
list containing the expected value, or the record's field equals the
expected value exactly (an unguarded disjunction). -/
def claimFilterCond (metadata : Metadata) (w : Filter) : Prop :=
  ∀ p ∈ w, ∃ mv, metadata.lookup p.1 = some mv ∧
    ((∃ l, mv = .list l ∧ p.2 ∈ l) ∨ mv = p.2)

/-- The filter-matching condition with the disjunction guarded the way the
code decides it: a list-valued field matches by membership only, a
non-list field by exact equality only. -/
def amendedFilterCond (metadata : Metadata) (w : Filter) : Prop :=
  ∀ p ∈ w, ∃ mv, metadata.lookup p.1 = some mv ∧
    ((∃ l, mv = .list l ∧ p.2 ∈ l) ∨ ((∀ l, mv ≠ .list l) ∧ mv = p.2))

/-- The deliverable of `delete` as the specification describes it: the
returned count is the number of matching records; every matching record
disappears from all three mappings; every id whose record does not match
(or which has no record) keeps its text, embedding and metadata unchanged. -/
def DeleteFrameSpec (S : Store) (w : Filter) : Prop :=
  ((delete S w).2 = (S.metadatas.filter fun p => matches_filter p.2 w).length) ∧
  (∀ id m, S.metadatas.lookup id = some m → matches_filter m w = true →
    (delete S w).1.documents.lookup id = none ∧
    (delete S w).1.embeddings.lookup id = none ∧
    (delete S w).1.metadatas.lookup id = none) ∧
  (∀ id, (∀ m, S.metadatas.lookup id = some m → matches_filter m w = false) →
    (delete S w).1.documents.lookup id = S.documents.lookup id ∧
    (delete S w).1.embeddings.lookup id = S.embeddings.lookup id ∧
    (delete S w).1.metadatas.lookup id = S.metadatas.lookup id)

/-- The four parallel singly-nested result lists `query` returns, assembled
from an ordered sequence of (id, text, metadata, distance) tuples. -/
noncomputable def queryOutputOf (L : List (String × String × Metadata × ℝ)) : QueryResult :=
  { ids := [L.map fun r => r.1]
    documents := [L.map fun r => r.2.1]
    metadatas := [L.map fun r => r.2.2.1]
    distances := [L.map fun r => r.2.2.2] }

/-- The amended filter-semantics contract of the filtered operations: the
match predicate decides each field by membership for list fields and by
equality otherwise; `get` with no filter reports every id; `get` with a
filter reports exactly the matching ids; `query` (with the bound set to
the store size, so that truncation drops nothing) considers exactly the
matching ids, with and without a filter; `delete` removes exactly the
matching records and returns their number. -/
def FilterSemanticsSpec (S : Store) (w : Filter) (q : List ℝ)
    (incl : Option (List String)) : Prop :=
  (∀ m w', matches_filter m w' = true ↔ amendedFilterCond m w') ∧
  ((get S none incl).ids = keys S.metadatas) ∧
  ((get S (some w) incl).ids =
    (S.metadatas.filter fun p => matches_filter p.2 w).map Prod.fst) ∧
  (∀ id, id ∈ (query S [q] S.metadatas.length (some w)).ids.headD [] ↔
    id ∈ (S.metadatas.filter fun p => matches_filter p.2 w).map Prod.fst) ∧
  (∀ id, id ∈ (query S [q] S.metadatas.length none).ids.headD [] ↔
    id ∈ keys S.metadatas) ∧
  ((delete S w).1.metadatas = S.metadatas.filter fun p => !(matches_filter p.2 w)) ∧
  ((delete S w).2 = (S.metadatas.filter fun p => matches_filter p.2 w).length)

/-! ## Concrete fixtures used by counterexamples and witnesses -/

/-- The filter selecting document X's records. -/
def xFilter : Filter := [("doc_id", .str "X")]

/-- A store with no records. -/
def emptyStore : Store :=
  { persist_path := "data", documents := [], embeddings := [], metadatas := [] }

/-- A store holding two records of one document plus one of another. -/
def demoStore : Store :=
  { persist_path := "data"
    documents := [("x_chunk_0", "alpha"), ("x_chunk_1", "beta"), ("y_chunk_0", "gamma")]
    embeddings := [("x_chunk_0", [1, 0]), ("x_chunk_1", [0, 1]), ("y_chunk_0", [1, 0])]
    metadatas := [("x_chunk_0", [("doc_id", .str "X")]),
                  ("x_chunk_1", [("doc_id", .str "X")]),
                  ("y_chunk_0", [("doc_id", .str "Y")])] }

/-- An add followed by a delete, as used by the key-set-invariant witness. -/
def demoOps : List StoreOp :=
  [.addOp ["x_chunk_0", "y_chunk_0"] ["alpha", "gamma"] [[1, 0], [1, 0]]
      [[("doc_id", .str "X")], [("doc_id", .str "Y")]],
   .delOp [("doc_id", .str "X")]]

/-- The 24-character text "aaaa aaaa aaaa aaaa aaaa" (spaces at offsets
4, 9, 14 and 19). -/
def c6Text : List Char :=
  ['a', 'a', 'a', 'a', ' ', 'a', 'a', 'a', 'a', ' ', 'a', 'a', 'a', 'a', ' ',
   'a', 'a', 'a', 'a', ' ', 'a', 'a', 'a', 'a']

/-- The 9-character text "aaaa aaaa" (a space at offset 4). -/
def c7Text : List Char := ['a', 'a', 'a', 'a', ' ', 'a', 'a', 'a', 'a']

/-- A metadata record whose only field is a one-element list value. -/
def listFieldMeta : Metadata := [("k", .list [.str "a"])]

/-- A filter expecting, for that field, the very same one-element list. -/
def listValueFilter : Filter := [("k", .list [.str "a"])]

/-! ## Basic dictionary lemmas -/

theorem lookup_isSome_iff (m : List (String × α)) (k : String) :
    (m.lookup k).isSome = true ↔ k ∈ keys m := by
  induction m with
  | nil => simp [keys, List.lookup]
  | cons p t ih =>
    simp only [List.lookup, keys, List.map_cons, List.mem_cons]
    by_cases h : k = p.1
    · simp [h]
    · have : (k == p.1) = false := by simp [h]
      simp [this, ih, keys, h]

theorem mem_keys_dictInsert (m : List (String × α)) (k k' : String) (v : α) :
    k' ∈ keys (dictInsert m k v) ↔ k' ∈ keys m ∨ k' = k := by
  unfold dictInsert
  by_cases h : (m.lookup k).isSome = true
  · have hk : k ∈ keys m := (lookup_isSome_iff m k).1 h
    simp only [h, if_true]
    have hkeys : keys (m.map fun p => if p.1 = k then (k, v) else p) = keys m := by
      simp only [keys, List.map_map]
      apply List.map_congr_left
      intro p _
      by_cases hp : p.1 = k <;> simp [hp]
    rw [hkeys]
    constructor
    · exact Or.inl
    · rintro (h' | rfl)
      · exact h'
      · exact hk
  · simp only [h, if_false, keys, List.map_append]
    simp [keys]

theorem lookup_eq_some_of_nodup (m : List (String × α)) (k : String) (v : α)
    (hnd : (keys m).Nodup) (hmem : (k, v) ∈ m) : m.lookup k = some v := by
  induction m with
  | nil => simp at hmem
  | cons p t ih =>
    simp only [keys, List.map_cons, List.nodup_cons] at hnd
    rcases List.mem_cons.1 hmem with h | h
    · cases h
      simp [List.lookup]
    · have hk : k ∈ keys t := List.mem_map_of_mem Prod.fst h
      have : k ≠ p.1 := fun he => hnd.1 (he ▸ hk)
      have hbeq : (k == p.1) = false := by simp [this]
      simp [List.lookup, hbeq]
      exact ih hnd.2 h

theorem lookup_mem (m : List (String × α)) (k : String) (v : α)
    (h : m.lookup k = some v) : (k, v) ∈ m := by
  induction m with
  | nil => simp [List.lookup] at h
  | cons p t ih =>
    obtain ⟨a, b⟩ := p
    rw [List.lookup] at h
    by_cases hk : k = a
    · subst hk
      simp only [beq_self_eq_true] at h
      cases h
      exact List.mem_cons_self _ _
    · have hbeq : (k == a) = false := by simp [hk]
      simp only [hbeq] at h
      exact List.mem_cons_of_mem _ (ih h)

theorem mem_keys_remove_ids (m : List (String × α)) (td : List String) (k : String) :
    k ∈ keys (m.filter fun p => !td.contains p.1) ↔
      k ∈ keys m ∧ (!td.contains k) = true := by
  simp only [keys, List.mem_map, List.mem_filter]
  constructor
  · rintro ⟨p, ⟨hp, hq⟩, rfl⟩
    exact ⟨⟨p, hp, rfl⟩, hq⟩
  · rintro ⟨⟨p, hp, rfl⟩, hq⟩
    exact ⟨p, ⟨hp, hq⟩, rfl⟩

theorem lookup_filter_key_of_kept (m : List (String × α)) (q : String → Bool)
    (k : String) (hq : q k = true) :
    (m.filter fun p => q p.1).lookup k = m.lookup k := by
  induction m with
  | nil => simp
  | cons p t ih =>
    by_cases hk : k = p.1
    · subst hk
      simp only [List.filter_cons, hq, if_pos, List.lookup]
      simp [List.lookup, ih]
    · have hbeq : (k == p.1) = false := by simp [hk]
      rw [List.filter_cons]
      by_cases hqp : q p.1 = true
      · simp only [hqp, if_pos, List.lookup, hbeq]
        exact ih
      · simp only [Bool.not_eq_true] at hqp
        simp only [hqp, Bool.false_eq_true, if_false]
        rw [List.lookup, hbeq, ih]

theorem lookup_eq_none_of_not_mem_keys (m : List (String × α)) (k : String)
    (h : k ∉ keys m) : m.lookup k = none := by
  cases ho : m.lookup k with
  | none => rfl
  | some v =>
    exact absurd ((lookup_isSome_iff m k).1 (by simp [ho])) h

/-! ## Key-set invariant preservation (claim C1) -/

theorem sameKeys_addRecord (S : Store) (r : String × String × List ℝ × Metadata)
    (h : sameKeys S) : sameKeys (addRecord S r) := by
  obtain ⟨h1, h2⟩ := h
  constructor <;> intro k <;>
    simp only [addRecord, mem_keys_dictInsert]
  · rw [h1 k]
  · rw [h2 k]

theorem sameKeys_addLoop (l : List (String × String × List ℝ × Metadata)) :
    ∀ S : Store, sameKeys S → sameKeys (l.foldl addRecord S) := by
  induction l with
  | nil => exact fun S h => h
  | cons r t ih => exact fun S h => ih _ (sameKeys_addRecord S r h)

theorem sameKeys_delete (S : Store) (w : Filter) (h : sameKeys S) :
    sameKeys (delete S w).1 := by
  obtain ⟨h1, h2⟩ := h
  constructor <;> intro k <;>
    simp only [delete, mem_keys_remove_ids]
  · rw [h1 k]
  · rw [h2 k]

/-- C1: starting from any store satisfying the key-set invariant, any
sequence of `add` calls (each with sufficiently long, in particular
equal-length, argument arrays — shorter arrays make the call fail, modelled
by `none`) and `delete` calls leaves the three internal mappings of
`SimpleVectorStore` with exactly the same key set; by instantiating with
every prefix of the sequence, the invariant holds after each operation. -/
theorem store_ops_preserve_sameKeys (S : Store) (ops : List StoreOp)
    (h : sameKeys S) : (applyOps S ops).elim True sameKeys := by
  induction ops generalizing S with
  | nil => exact h
  | cons op ops ih =>
    cases op with
    | addOp ids docs embs metas =>
      show ((add S ids docs embs metas).bind fun S' => applyOps S' ops).elim True sameKeys
      unfold add
      split
      · exact ih _ (sameKeys_addLoop _ S h)
      · trivial
    | delOp w =>
      exact ih _ (sameKeys_delete S w h)

theorem store_ops_preserve_sameKeys_witness :
    sameKeys emptyStore ∧ (applyOps emptyStore demoOps).elim True sameKeys := by
  have h0 : sameKeys emptyStore := by
    constructor <;> intro k <;> simp [emptyStore, keys]
  exact ⟨h0, store_ops_preserve_sameKeys emptyStore demoOps h0⟩

/-! ## Delete: exact removal, frame and count (claim C5) -/

theorem contains_iff_mem [BEq α] [LawfulBEq α] (l : List α) (a : α) :
    l.contains a = true ↔ a ∈ l := by
  simp [List.contains]

theorem lookup_remove_ids_of_deleted (m : List (String × α)) (td : List String)
    (k : String) (h : td.contains k = true) :
    (m.filter fun p => !td.contains p.1).lookup k = none := by
  apply lookup_eq_none_of_not_mem_keys
  rw [mem_keys_remove_ids]
  rintro ⟨-, hk⟩
  rw [h] at hk
  exact Bool.false_ne_true hk

theorem lookup_remove_ids_of_kept (m : List (String × α)) (td : List String)
    (k : String) (h : td.contains k = false) :
    (m.filter fun p => !td.contains p.1).lookup k = m.lookup k :=
  lookup_filter_key_of_kept m (fun x => !td.contains x) k (by
    show (!td.contains k) = true
    rw [h]
    rfl)

/-- C5: for every store whose metadata mapping has no duplicate ids (every
Python dict state), `delete` removes exactly the records whose metadata
matches the filter from all three mappings, returns the number of records
removed, and leaves every non-matching record's text, embedding and
metadata unchanged. -/
theorem delete_removes_exactly (S : Store) (w : Filter)
    (hnd : (keys S.metadatas).Nodup) : DeleteFrameSpec S w := by
  refine ⟨?_, ?_, ?_⟩
  · show ((S.metadatas.filter fun p => matches_filter p.2 w).map Prod.fst).length = _
    exact List.length_map _ _
  · intro id m hlk hm
    have hmem : (id, m) ∈ S.metadatas.filter fun p => matches_filter p.2 w :=
      List.mem_filter.2 ⟨lookup_mem _ _ _ hlk, hm⟩
    have htd : ((S.metadatas.filter fun p => matches_filter p.2 w).map Prod.fst).contains id = true :=
      (contains_iff_mem _ _).2 (List.mem_map_of_mem Prod.fst hmem)
    exact ⟨lookup_remove_ids_of_deleted _ _ _ htd,
           lookup_remove_ids_of_deleted _ _ _ htd,
           lookup_remove_ids_of_deleted _ _ _ htd⟩
  · intro id hnm
    have htd : ((S.metadatas.filter fun p => matches_filter p.2 w).map Prod.fst).contains id = false := by
      by_contra hc
      have hc' : ((S.metadatas.filter fun p => matches_filter p.2 w).map Prod.fst).contains id = true := by
        revert hc
        cases ((S.metadatas.filter fun p => matches_filter p.2 w).map Prod.fst).contains id <;> simp
      obtain ⟨p, hp, hpid⟩ := List.mem_map.1 ((contains_iff_mem _ _).1 hc')
      obtain ⟨hpm, hmatch⟩ := List.mem_filter.1 hp
      have hlkp : S.metadatas.lookup p.1 = some p.2 :=
        lookup_eq_some_of_nodup _ _ _ hnd hpm
      rw [hpid] at hlkp
      have := hnm p.2 hlkp
      rw [this] at hmatch
      exact Bool.false_ne_true hmatch
    exact ⟨lookup_remove_ids_of_kept _ _ _ htd,
           lookup_remove_ids_of_kept _ _ _ htd,
           lookup_remove_ids_of_kept _ _ _ htd⟩

theorem delete_removes_exactly_witness :
    (keys demoStore.metadatas).Nodup ∧ DeleteFrameSpec demoStore xFilter :=
  ⟨by decide, delete_removes_exactly demoStore xFilter (by decide)⟩

/-! ## Persistence round-trip (claim C4) -/

/-- C4: saving any store state and loading the resulting snapshot at the
same persistence path reproduces the state exactly — in particular for
every reachable populated state. The byte-level pickle encoding is the
Python standard library's and is modelled as the identity on the snapshot
record `_save` builds and `_load` reads back field by field. -/
theorem save_load_roundtrip (S : Store) :
    storeLoad S.persist_path (storeSave S) = S := rfl

/-! ## Stable-sort lemmas -/

theorem insertKeyed_map (key₁ : α → ℝ) (key₂ : β → ℝ) (f : α → β)
    (hf : ∀ x, key₂ (f x) = key₁ x) (x : α) (l : List α) :
    insertKeyed key₂ (f x) (l.map f) = (insertKeyed key₁ x l).map f := by
  induction l with
  | nil => simp [insertKeyed]
  | cons y ys ih =>
    simp only [List.map_cons, insertKeyed, hf]
    by_cases h : key₁ x < key₁ y
    · simp [h]
    · simp [h, ih]

theorem sortByKey_foldl_map (key₁ : α → ℝ) (key₂ : β → ℝ) (f : α → β)
    (hf : ∀ x, key₂ (f x) = key₁ x) (l : List α) :
    ∀ acc : List α,
      (l.map f).foldl (fun a x => insertKeyed key₂ x a) (acc.map f) =
        (l.foldl (fun a x => insertKeyed key₁ x a) acc).map f := by
  induction l with
  | nil => intro acc; rfl
  | cons x xs ih =>
    intro acc
    rw [List.map_cons, List.foldl_cons, List.foldl_cons,
        insertKeyed_map key₁ key₂ f hf, ih]

theorem sortByKey_map (key₁ : α → ℝ) (key₂ : β → ℝ) (f : α → β)
    (hf : ∀ x, key₂ (f x) = key₁ x) (l : List α) :
    sortByKey key₂ (l.map f) = (sortByKey key₁ l).map f := by
  have h := sortByKey_foldl_map key₁ key₂ f hf l []
  simpa [sortByKey] using h

theorem mem_insertKeyed (key : α → ℝ) (x a : α) (l : List α) :
    a ∈ insertKeyed key x l ↔ a = x ∨ a ∈ l := by
  induction l with
  | nil => simp [insertKeyed]
  | cons y ys ih =>
    rw [insertKeyed]
    by_cases h : key x < key y
    · simp [h]
    · simp only [h, if_false, List.mem_cons, ih]
      tauto

theorem mem_sortByKey_foldl (key : α → ℝ) (l : List α) :
    ∀ acc a, a ∈ l.foldl (fun ac x => insertKeyed key x ac) acc ↔ a ∈ acc ∨ a ∈ l := by
  induction l with
  | nil => simp
  | cons x xs ih =>
    intro acc a
    rw [List.foldl_cons, ih, mem_insertKeyed]
    simp only [List.mem_cons]
    tauto

theorem mem_sortByKey (key : α → ℝ) (l : List α) (a : α) :
    a ∈ sortByKey key l ↔ a ∈ l := by
  rw [sortByKey, mem_sortByKey_foldl]
  simp

theorem length_insertKeyed (key : α → ℝ) (x : α) (l : List α) :
    (insertKeyed key x l).length = l.length + 1 := by
  induction l with
  | nil => rfl
  | cons y ys ih =>
    rw [insertKeyed]
    by_cases h : key x < key y
    · simp [h]
    · simp [h, ih]

theorem length_sortByKey_foldl (key : α → ℝ) (l : List α) :
    ∀ acc, (l.foldl (fun ac x => insertKeyed key x ac) acc).length = acc.length + l.length := by
  induction l with
  | nil => simp
  | cons x xs ih =>
    intro acc
    rw [List.foldl_cons, ih, length_insertKeyed, List.length_cons]
    omega

theorem length_sortByKey (key : α → ℝ) (l : List α) :
    (sortByKey key l).length = l.length := by
  rw [sortByKey, length_sortByKey_foldl]
  simp

/-! ## Query refines the specification pipeline (claim C2) -/

theorem metadatas_eq_nil_of_embeddings_nil (S : Store)
    (h2 : keys S.embeddings = keys S.metadatas)
    (hemb : S.embeddings = []) : S.metadatas = [] := by
  have h : keys S.metadatas = [] := by rw [← h2, hemb]; rfl
  unfold keys at h
  exact List.map_eq_nil_iff.mp h

/-- C2: on every well-formed store (the three mappings share one key list
and ids are unique — every Python dict state satisfying the store
invariant), `query` returns exactly the specification pipeline: records
selected by the filter, scored with cosine distance
`1 − (q·e)/(‖q‖·‖e‖ + 1e-8)`, stably sorted ascending by distance,
truncated to the first `k`, and emitted as the parallel lists of ids,
texts, metadata and distances; an empty store or empty candidate set
yields the empty result rather than an error. -/
theorem query_refines_spec (S : Store) (qs : List (List ℝ)) (k : Nat) (w : Option Filter)
    (h2 : keys S.embeddings = keys S.metadatas)
    (h3 : (keys S.metadatas).Nodup) :
    query S qs k w = queryOutputOf (querySpec S (qs.headD []) k w) := by
  by_cases hemb : S.embeddings = []
  · have hmet : S.metadatas = [] := metadatas_eq_nil_of_embeddings_nil S h2 hemb
    rw [query, if_pos hemb]
    simp [querySpec, hmet, sortByKey, queryOutputOf, emptyQueryResult]
  · rw [query, if_neg hemb]
    simp only []
    by_cases hc : (S.metadatas.filter fun p => selectedBy w p.2).map Prod.fst = []
    · have hFnil : (S.metadatas.filter fun p => selectedBy w p.2) = [] :=
        List.map_eq_nil_iff.mp hc
      rw [if_pos hc]
      simp [querySpec, hFnil, sortByKey, queryOutputOf, emptyQueryResult]
    · rw [if_neg hc]
      have hFmem : ∀ p ∈ (S.metadatas.filter fun p => selectedBy w p.2),
          (S.metadatas.lookup p.1).getD [] = p.2 := by
        intro p hp
        rw [lookup_eq_some_of_nodup S.metadatas p.1 p.2 h3 (List.mem_of_mem_filter hp)]
        rfl
      have hscored :
          ((S.metadatas.filter fun p => selectedBy w p.2).map fun p =>
            (p.1, (S.documents.lookup p.1).getD "", p.2,
             cosineDist (qs.headD []) ((S.embeddings.lookup p.1).getD []))) =
          ((S.metadatas.filter fun p => selectedBy w p.2).map fun p =>
            (p.1, cosineDist (qs.headD []) ((S.embeddings.lookup p.1).getD []))).map
            (fun r => (r.1, (S.documents.lookup r.1).getD "",
              (S.metadatas.lookup r.1).getD [], r.2)) := by
        rw [List.map_map]
        apply List.map_congr_left
        intro p hp
        simp only [Function.comp]
        rw [hFmem p hp]
      have hdist :
          (((S.metadatas.filter fun p => selectedBy w p.2).map Prod.fst).map fun id =>
            (id, cosineDist (qs.headD []) ((S.embeddings.lookup id).getD []))) =
          ((S.metadatas.filter fun p => selectedBy w p.2).map fun p =>
            (p.1, cosineDist (qs.headD []) ((S.embeddings.lookup p.1).getD []))) := by
        rw [List.map_map]
        rfl
      rw [querySpec, queryOutputOf]
      simp only [hscored, hdist]
      rw [sortByKey_map (fun r : String × ℝ => r.2)
        (fun r : String × String × Metadata × ℝ => r.2.2.2)
        (fun r => (r.1, (S.documents.lookup r.1).getD "",
          (S.metadatas.lookup r.1).getD [], r.2)) (fun x => rfl)]
      rw [← List.map_take]
      simp only [List.map_map, QueryResult.mk.injEq, List.cons.injEq, and_true]
      refine ⟨?_, ?_, ?_, ?_⟩ <;>
        exact List.map_congr_left fun r hr => rfl

theorem query_refines_spec_witness :
    keys demoStore.embeddings = keys demoStore.metadatas ∧
    (keys demoStore.metadatas).Nodup ∧
    query demoStore [[1, 0]] 2 none =
      queryOutputOf (querySpec demoStore (([[1, 0]] : List (List ℝ)).headD []) 2 none) :=
  ⟨rfl, by decide,
   query_refines_spec demoStore [[1, 0]] 2 none rfl (by decide)⟩

/-! ## The older chunker raises `TypeError` (claim C8) -/

/-- C8 (refuted by the code): the `chunk_text` of
`src/app/services/chunker.py` raises `TypeError` on the plain four-character
input "abcd" with `chunk_size = 2`: once a chunk has been emitted, its
progress guard evaluates `start <= chunks[-1]`, an `int <= str` comparison.
The backend chunker (see `chunk_text_terminates`) behaves as the claim
states, so the old variant's guard is a slip. -/
theorem app_chunk_text_raises :
    appChunkText ['a', 'b', 'c', 'd'] 2 0 = .error .typeError := rfl

/-! ## Single-chunk inputs (claim C9) -/

/-- C9 as stated is false: the whitespace-only input " " is a non-empty
text of length at most `max_size`, yet `chunk_text` returns `[]` rather
than the one-element sequence containing its (empty) trim. -/
theorem chunk_text_small_counterexample :
    ([' '] : List Char) ≠ [] ∧ ([' '] : List Char).length ≤ 500 ∧
    chunk_text [' '] 500 50 ≠ [pstrip [' ']] := by decide

theorem pstrip_length_le (l : List Char) : (pstrip l).length ≤ l.length := by
  unfold pstrip
  rw [List.length_reverse]
  calc ((l.dropWhile isPySpace).reverse.dropWhile isPySpace).length
      ≤ (l.dropWhile isPySpace).reverse.length :=
        (List.dropWhile_sublist _).length_le
    _ = (l.dropWhile isPySpace).length := List.length_reverse _
    _ ≤ l.length := (List.dropWhile_sublist _).length_le

/-- C9 amended: for every text whose trim is non-empty (rather than every
non-empty text) and whose length is at most `max_size`, `chunk_text`
returns exactly the one-element sequence holding the trimmed input. -/
theorem chunk_text_small_input (t : List Char) (cs ov : Nat)
    (h1 : pstrip t ≠ []) (h2 : t.length ≤ cs) :
    chunk_text t cs ov = [pstrip t] := by
  have ht : ¬(t = [] ∨ pstrip t = []) := by
    rintro (rfl | he)
    · exact h1 rfl
    · exact h1 he
  have hlen : (pstrip t).length ≤ cs := le_trans (pstrip_length_le t) h2
  unfold chunk_text
  rw [if_neg ht, if_pos hlen]

theorem chunk_text_small_input_witness :
    pstrip ['a', ' '] ≠ [] ∧ (['a', ' '] : List Char).length ≤ 500 ∧
    chunk_text ['a', ' '] 500 50 = [pstrip ['a', ' ']] :=
  ⟨by decide, by decide, chunk_text_small_input ['a', ' '] 500 50 (by decide) (by decide)⟩

/-! ## Window-end bounds of the boundary search -/

theorem rfind_spec (l sub : List Char) (s e i : Nat) (h : rfind l sub s e = some i) :
    s ≤ i ∧ i + sub.length ≤ min e l.length := by
  rw [rfind] at h
  have hp := List.find?_some h
  simp only [Bool.and_eq_true, decide_eq_true_eq] at hp
  exact ⟨hp.1.1, hp.1.2⟩

theorem findSentBreak_spec (text : List Char) (lo e start : Nat) :
    ∀ seps e2, findSentBreak text lo e start seps = some e2 →
      start < e2 ∧ e2 ≤ min e text.length := by
  intro seps
  induction seps with
  | nil => intro e2 h; simp [findSentBreak] at h
  | cons sep rest ih =>
    intro e2 h
    rw [findSentBreak] at h
    split at h
    next i heq =>
      split at h
      next hi =>
        cases h
        have hb := rfind_spec text sep lo e i heq
        exact ⟨by omega, hb.2⟩
      next hi => exact ih e2 h
    next heq => exact ih e2 h

theorem sentenceOrWordEnd_le (text : List Char) (cs start e : Nat) :
    sentenceOrWordEnd text cs start e ≤ e := by
  rw [sentenceOrWordEnd]
  split
  next e2 hs =>
    have hb := findSentBreak_spec text _ e start sentenceSeps e2 hs
    omega
  next hs =>
    split
    next i hw =>
      have hb := rfind_spec text [' '] _ e i hw
      simp only [List.length_cons, List.length_nil] at hb
      split
      next hi => omega
      next hi => exact le_refl e
    next hw => exact le_refl e

theorem lt_sentenceOrWordEnd (text : List Char) (cs start e : Nat) (he : start < e) :
    start < sentenceOrWordEnd text cs start e := by
  rw [sentenceOrWordEnd]
  split
  next e2 hs => exact (findSentBreak_spec text _ e start sentenceSeps e2 hs).1
  next hs =>
    split
    next i hw =>
      split
      next hi => omega
      next hi => exact he
    next hw => exact he

theorem computeEnd_le (text : List Char) (cs start : Nat) :
    computeEnd text cs start ≤ start + cs := by
  rw [computeEnd]
  split
  next he =>
    split
    next i hp =>
      have hb := rfind_spec text ['\n', '\n'] start (start + cs) i hp
      simp only [List.length_cons, List.length_nil] at hb
      split
      next hi => omega
      next hi => exact sentenceOrWordEnd_le text cs start (start + cs)
    next hp => exact sentenceOrWordEnd_le text cs start (start + cs)
  next he => exact le_refl _

theorem lt_computeEnd (text : List Char) (cs start : Nat) (hcs : 1 ≤ cs) :
    start < computeEnd text cs start := by
  rw [computeEnd]
  split
  next he =>
    split
    next i hp =>
      split
      next hi => omega
      next hi => exact lt_sentenceOrWordEnd text cs start _ (by omega)
    next hp => exact lt_sentenceOrWordEnd text cs start _ (by omega)
  next he => omega

/-! ## Termination of the chunking loop (claim C6) -/

theorem chunkLoop_some (text : List Char) (cs ov : Nat) (hcs : 1 ≤ cs) :
    ∀ fuel start acc, text.length - start < fuel →
      ∃ r n, chunkLoop text cs ov fuel start acc = some (r, n) ∧
        n ≤ text.length - start := by
  intro fuel
  induction fuel with
  | zero => intro start acc h; omega
  | succ fuel ih =>
    intro start acc h
    by_cases hs : start < text.length
    · have he1 : start < computeEnd text cs start := lt_computeEnd text cs start hcs
      have hlt : start < nextStart (computeEnd text cs start) ov start := by
        rw [nextStart]
        split <;> omega
      obtain ⟨r, n, hr, hn⟩ := ih (nextStart (computeEnd text cs start) ov start)
        (emitChunk acc (pstrip (pslice text start (computeEnd text cs start)))) (by omega)
      refine ⟨r, n + 1, ?_, by omega⟩
      rw [chunkLoop, if_pos hs, hr]
    · exact ⟨acc, 0, by rw [chunkLoop, if_neg hs], by omega⟩

/-- C6 as stated is false: with `max_size = 8` and `overlap = 0` on the
24-character text "aaaa aaaa aaaa aaaa aaaa", the word-break tier cuts
each window after the space at offset 4, so the loop runs 5 iterations,
exceeding the claimed bound `ceil(24 / 8) + 1 = 4`. -/
theorem chunk_iters_counterexample :
    (0 : Nat) < 8 - 0 ∧
    chunkTextIters c6Text 8 0 = some 5 ∧
    ¬ (5 ≤ (c6Text.length + (8 - 0) - 1) / (8 - 0) + 1) := by decide

/-- C6 amended: for every text and every `0 ≤ overlap < max_size`,
`chunk_text` terminates, and its chunking loop executes at most `len(t)`
iterations (the claimed bound `ceil(len(t)/(max_size-overlap)) + 1` does
not hold when the boundary search shortens a window, see
`chunk_iters_counterexample`). -/
theorem chunk_text_terminates (t : List Char) (cs ov : Nat) (hov : ov < cs) :
    ∃ n, chunkTextIters t cs ov = some n ∧ n ≤ t.length := by
  rw [chunkTextIters]
  by_cases h0 : t = [] ∨ pstrip t = []
  · rw [if_pos h0]
    exact ⟨0, rfl, Nat.zero_le _⟩
  · rw [if_neg h0]
    by_cases h1 : (pstrip t).length ≤ cs
    · rw [if_pos h1]
      exact ⟨0, rfl, Nat.zero_le _⟩
    · rw [if_neg h1]
      obtain ⟨r, n, hr, hn⟩ := chunkLoop_some (pstrip t) cs ov (by omega)
        ((pstrip t).length + 1) 0 [] (by omega)
      have hlen := pstrip_length_le t
      exact ⟨n, by rw [hr]; rfl, by omega⟩

theorem chunk_text_terminates_witness :
    (0 : Nat) < 8 ∧ ∃ n, chunkTextIters c6Text 8 0 = some n ∧ n ≤ c6Text.length :=
  ⟨by decide, chunk_text_terminates c6Text 8 0 (by decide)⟩

/-! ## Every emitted chunk fits the window (claim C10) -/

theorem length_pslice_le (l : List Char) (s e : Nat) :
    (pslice l s e).length ≤ e - s := by
  rw [pslice, List.length_drop, List.length_take]
  omega

theorem chunk_length_le (text : List Char) (cs start : Nat) :
    (pstrip (pslice text start (computeEnd text cs start))).length ≤ cs := by
  have h1 := pstrip_length_le (pslice text start (computeEnd text cs start))
  have h2 := length_pslice_le text start (computeEnd text cs start)
  have h3 := computeEnd_le text cs start
  omega

theorem chunkLoop_all_le (text : List Char) (cs ov : Nat) :
    ∀ fuel start acc r n, (∀ ch ∈ acc, ch.length ≤ cs) →
      chunkLoop text cs ov fuel start acc = some (r, n) →
      ∀ ch ∈ r, ch.length ≤ cs := by
  intro fuel
  induction fuel with
  | zero =>
    intro start acc r n hacc h
    rw [chunkLoop] at h
    cases h
  | succ fuel ih =>
    intro start acc r n hacc h
    rw [chunkLoop] at h
    by_cases hs : start < text.length
    · rw [if_pos hs] at h
      cases hrec : chunkLoop text cs ov fuel
          (nextStart (computeEnd text cs start) ov start)
          (emitChunk acc (pstrip (pslice text start (computeEnd text cs start)))) with
      | none =>
        rw [hrec] at h
        cases h
      | some p =>
        rw [hrec] at h
        obtain ⟨r', n'⟩ := p
        cases h
        apply ih _ _ _ _ _ hrec
        intro ch hch
        rw [emitChunk] at hch
        by_cases hemp : pstrip (pslice text start (computeEnd text cs start)) = []
        · rw [if_pos hemp] at hch
          exact hacc ch hch
        · rw [if_neg hemp] at hch
          rcases List.mem_append.1 hch with hm | hm
          · exact hacc ch hm
          · rw [List.mem_singleton.1 hm]
            exact chunk_length_le text cs start
    · rw [if_neg hs] at h
      cases h
      exact hacc

/-- C10: for every input text and every `0 ≤ overlap < max_size`, every
chunk emitted by `chunk_text` has length at most `max_size`: the boundary
search only shrinks the window's right edge (`computeEnd_le`) and trimming
never lengthens a chunk. -/
theorem chunk_text_length_le (t : List Char) (cs ov : Nat) (hov : ov < cs) :
    ∀ ch ∈ chunk_text t cs ov, ch.length ≤ cs := by
  rw [chunk_text]
  by_cases h0 : t = [] ∨ pstrip t = []
  · rw [if_pos h0]
    intro ch hch
    cases hch
  · rw [if_neg h0]
    by_cases h1 : (pstrip t).length ≤ cs
    · rw [if_pos h1]
      intro ch hch
      rw [List.mem_singleton.1 hch]
      exact h1
    · rw [if_neg h1]
      cases hr : chunkLoop (pstrip t) cs ov ((pstrip t).length + 1) 0 [] with
      | none =>
        intro ch hch
        cases hch
      | some p =>
        obtain ⟨r, n⟩ := p
        intro ch hch
        exact chunkLoop_all_le (pstrip t) cs ov _ 0 [] r n (by intro c hc; cases hc) hr ch hch

theorem chunk_text_length_le_witness :
    (0 : Nat) < 5 ∧ ∀ ch ∈ chunk_text c7Text 5 0, ch.length ≤ 5 :=
  ⟨by decide, chunk_text_length_le c7Text 5 0 (by decide)⟩

/-! ## Coverage of non-whitespace characters (claim C7) -/

theorem mem_dropWhile_of_nonspace (l : List Char) (c : Char)
    (hc : c ∈ l) (hp : isPySpace c = false) : c ∈ l.dropWhile isPySpace := by
  induction l with
  | nil => cases hc
  | cons x xs ih =>
    rw [List.dropWhile_cons]
    by_cases hx : isPySpace x = true
    · rw [if_pos hx]
      apply ih
      rcases List.mem_cons.1 hc with rfl | hm
      · rw [hp] at hx
        cases hx
      · exact hm
    · rw [if_neg hx]
      exact hc

theorem mem_pstrip_of_nonspace (l : List Char) (c : Char)
    (hc : c ∈ l) (hp : isPySpace c = false) : c ∈ pstrip l := by
  rw [pstrip, List.mem_reverse]
  apply mem_dropWhile_of_nonspace
  · rw [List.mem_reverse]
    exact mem_dropWhile_of_nonspace l c hc hp
  · exact hp

theorem mem_pslice (l : List Char) (s e i : Nat) (hs : s ≤ i) (hie : i < e)
    (hil : i < l.length) : l[i] ∈ pslice l s e := by
  rw [pslice]
  have h1 : i - s < ((l.take e).drop s).length := by
    rw [List.length_drop, List.length_take]
    omega
  have h2 : ((l.take e).drop s)[i - s] = l[i] := by
    rw [List.getElem_drop]
    rw [List.getElem_take]
    congr 1
    omega
  rw [← h2]
  exact List.getElem_mem h1

theorem chunkLoop_extends (text : List Char) (cs ov : Nat) :
    ∀ fuel start acc r n, chunkLoop text cs ov fuel start acc = some (r, n) →
      ∃ rest, r = acc ++ rest := by
  intro fuel
  induction fuel with
  | zero =>
    intro start acc r n h
    rw [chunkLoop] at h
    cases h
  | succ fuel ih =>
    intro start acc r n h
    rw [chunkLoop] at h
    by_cases hs : start < text.length
    · rw [if_pos hs] at h
      cases hrec : chunkLoop text cs ov fuel
          (nextStart (computeEnd text cs start) ov start)
          (emitChunk acc (pstrip (pslice text start (computeEnd text cs start)))) with
      | none =>
        rw [hrec] at h
        cases h
      | some p =>
        rw [hrec] at h
        obtain ⟨r', n'⟩ := p
        cases h
        obtain ⟨rest, hrest⟩ := ih _ _ _ _ hrec
        rw [emitChunk] at hrest
        by_cases hemp : pstrip (pslice text start (computeEnd text cs start)) = []
        · rw [if_pos hemp] at hrest
          exact ⟨rest, hrest⟩
        · rw [if_neg hemp] at hrest
          exact ⟨pstrip (pslice text start (computeEnd text cs start)) :: rest, by
            rw [hrest, List.append_assoc]
            rfl⟩
    · rw [if_neg hs] at h
      cases h
      exact ⟨[], (List.append_nil acc).symm⟩

theorem chunkLoop_covers (text : List Char) (cs ov : Nat) :
    ∀ fuel start acc r n, chunkLoop text cs ov fuel start acc = some (r, n) →
      ∀ i, (hi : i < text.length) → start ≤ i → isPySpace text[i] = false →
        ∃ ch ∈ r, text[i] ∈ ch := by
  intro fuel
  induction fuel with
  | zero =>
    intro start acc r n h
    rw [chunkLoop] at h
    cases h
  | succ fuel ih =>
    intro start acc r n h
    rw [chunkLoop] at h
    by_cases hs : start < text.length
    · rw [if_pos hs] at h
      cases hrec : chunkLoop text cs ov fuel
          (nextStart (computeEnd text cs start) ov start)
          (emitChunk acc (pstrip (pslice text start (computeEnd text cs start)))) with
      | none =>
        rw [hrec] at h
        cases h
      | some p =>
        rw [hrec] at h
        obtain ⟨r', n'⟩ := p
        cases h
        intro i hi hstart hsp
        by_cases hie : i < computeEnd text cs start
        · have hmem : text[i] ∈ pslice text start (computeEnd text cs start) :=
            mem_pslice text start _ i hstart hie hi
          have hmem2 : text[i] ∈ pstrip (pslice text start (computeEnd text cs start)) :=
            mem_pstrip_of_nonspace _ _ hmem hsp
          have hne : pstrip (pslice text start (computeEnd text cs start)) ≠ [] := by
            intro he
            rw [he] at hmem2
            cases hmem2
          obtain ⟨rest, hrest⟩ := chunkLoop_extends text cs ov fuel _ _ _ _ hrec
          refine ⟨pstrip (pslice text start (computeEnd text cs start)), ?_, hmem2⟩
          rw [hrest, emitChunk, if_neg hne]
          simp
        · apply ih _ _ _ _ hrec i hi ?_ hsp
          have := computeEnd_le text cs start
          rw [nextStart]
          split <;> omega
    · rw [if_neg hs] at h
      intro i hi hstart hsp
      omega

/-- C7 as stated is false: on the text "aaaa aaaa" with `max_size = 5` and
`overlap = 0` the cut falls just after the space, per-chunk trimming then
removes it from the first chunk, and the space character of the trimmed
input appears in no returned chunk. -/
theorem chunk_text_coverage_counterexample :
    (0 : Nat) < 5 ∧ (' ' ∈ pstrip c7Text) ∧
    ∀ ch ∈ chunk_text c7Text 5 0, ' ' ∉ ch := by decide

/-- C7 amended: for every input text and every `0 ≤ overlap < max_size`,
every non-whitespace character of the trimmed input appears in at least
one chunk returned by `chunk_text` (whitespace characters at a cut
boundary are removed by the per-chunk trim, see
`chunk_text_coverage_counterexample`). -/
theorem chunk_text_covers (t : List Char) (cs ov : Nat) (hov : ov < cs) :
    ∀ c ∈ pstrip t, isPySpace c = false → ∃ ch ∈ chunk_text t cs ov, c ∈ ch := by
  intro c hc hsp
  rw [chunk_text]
  by_cases h0 : t = [] ∨ pstrip t = []
  · exfalso
    rcases h0 with rfl | he
    · cases hc
    · rw [he] at hc
      cases hc
  · rw [if_neg h0]
    by_cases h1 : (pstrip t).length ≤ cs
    · rw [if_pos h1]
      exact ⟨pstrip t, List.mem_singleton.2 rfl, hc⟩
    · rw [if_neg h1]
      obtain ⟨r, n, hr, -⟩ := chunkLoop_some (pstrip t) cs ov (by omega)
        ((pstrip t).length + 1) 0 [] (by omega)
      rw [hr]
      obtain ⟨i, hi, hci⟩ := List.mem_iff_getElem.1 hc
      obtain ⟨ch, hch, hmem⟩ := chunkLoop_covers (pstrip t) cs ov
        ((pstrip t).length + 1) 0 [] r n hr i hi (Nat.zero_le i) (by rw [hci]; exact hsp)
      exact ⟨ch, hch, by rw [← hci]; exact hmem⟩

theorem chunk_text_covers_witness :
    (0 : Nat) < 5 ∧
    ∀ c ∈ pstrip c7Text, isPySpace c = false → ∃ ch ∈ chunk_text c7Text 5 0, c ∈ ch :=
  ⟨by decide, chunk_text_covers c7Text 5 0 (by decide)⟩

/-! ## Filter semantics of the filtered operations (claim C3) -/

theorem matches_filter_iff_amended (m : Metadata) (w' : Filter) :
    matches_filter m w' = true ↔ amendedFilterCond m w' := by
  rw [matches_filter, List.all_eq_true]
  constructor
  · intro h p hp
    have hv := h p hp
    cases hlk : m.lookup p.1 with
    | none =>
      rw [hlk] at hv
      cases hv
    | some mv =>
      rw [hlk] at hv
      refine ⟨mv, rfl, ?_⟩
      cases mv with
      | str s =>
        have hv2 : decide (MValue.str s = p.2) = true := hv
        exact Or.inr ⟨fun l hl => MValue.noConfusion hl, of_decide_eq_true hv2⟩
      | int n =>
        have hv2 : decide (MValue.int n = p.2) = true := hv
        exact Or.inr ⟨fun l hl => MValue.noConfusion hl, of_decide_eq_true hv2⟩
      | list l =>
        have hv2 : l.contains p.2 = true := hv
        exact Or.inl ⟨l, rfl, (contains_iff_mem l p.2).1 hv2⟩
  · intro h p hp
    obtain ⟨mv, hlk, hcase⟩ := h p hp
    rw [hlk]
    rcases hcase with ⟨l, rfl, hmem⟩ | ⟨hnl, hmv⟩
    · show List.contains l p.2 = true
      exact (contains_iff_mem l p.2).2 hmem
    · cases mv with
      | str s =>
        show decide (MValue.str s = p.2) = true
        rw [← hmv]
        exact decide_eq_true rfl
      | int n =>
        show decide (MValue.int n = p.2) = true
        rw [← hmv]
        exact decide_eq_true rfl
      | list l => exact absurd rfl (hnl l)

theorem query_ids_mem (S : Store) (qs : List (List ℝ)) (w : Option Filter)
    (h2 : keys S.embeddings = keys S.metadatas) (id : String) :
    id ∈ (query S qs S.metadatas.length w).ids.headD [] ↔
      id ∈ (S.metadatas.filter fun p => selectedBy w p.2).map Prod.fst := by
  by_cases hemb : S.embeddings = []
  · have hmet : S.metadatas = [] := metadatas_eq_nil_of_embeddings_nil S h2 hemb
    rw [query, if_pos hemb]
    simp [emptyQueryResult, hmet]
  · rw [query, if_neg hemb]
    simp only []
    by_cases hc : (S.metadatas.filter fun p => selectedBy w p.2).map Prod.fst = []
    · rw [if_pos hc]
      rw [hc]
      simp [emptyQueryResult]
    · rw [if_neg hc]
      have hlen : (sortByKey (fun p : String × ℝ => p.2)
          (((S.metadatas.filter fun p => selectedBy w p.2).map Prod.fst).map fun id =>
            (id, cosineDist (qs.headD []) ((S.embeddings.lookup id).getD [])))).length ≤
          S.metadatas.length := by
        rw [length_sortByKey, List.length_map, List.length_map]
        exact List.length_filter_le _ _
      show id ∈ (List.take S.metadatas.length _).map Prod.fst ↔ _
      rw [List.take_of_length_le hlen]
      constructor
      · intro hm
        obtain ⟨pr, hpr, hfst⟩ := List.mem_map.1 hm
        rw [mem_sortByKey] at hpr
        obtain ⟨cid, hcid, hpr2⟩ := List.mem_map.1 hpr
        rw [← hfst, ← hpr2]
        exact hcid
      · intro hm
        apply List.mem_map.2
        refine ⟨(id, cosineDist (qs.headD []) ((S.embeddings.lookup id).getD [])), ?_, rfl⟩
        rw [mem_sortByKey]
        exact List.mem_map.2 ⟨id, hm, rfl⟩

/-- C3 as stated is false: its two match conditions are an unguarded
disjunction, so a record whose field equals the expected value "exactly"
should match even when that field is a list not containing the value; the
code tests membership only for list fields. With the metadata field
`k = ["a"]` and the filter expecting `k = ["a"]`, the claimed condition
holds (exact equality) but `_matches_filter` returns `False`. -/
theorem matches_filter_claim_counterexample :
    ¬ (matches_filter listFieldMeta listValueFilter = true ↔
       claimFilterCond listFieldMeta listValueFilter) := by
  intro h
  have h2 : claimFilterCond listFieldMeta listValueFilter := by
    intro p hp
    rw [listValueFilter, List.mem_singleton] at hp
    subst hp
    exact ⟨.list [.str "a"], rfl, Or.inr rfl⟩
  have h3 := h.2 h2
  have h4 : matches_filter listFieldMeta listValueFilter = false := by decide
  rw [h4] at h3
  cases h3

/-- C3 amended: a record matches a filter iff, for every filter key, the
record has that field and either the field is a list containing the
expected value, or the field is not a list and equals the expected value
exactly (the disjunction is guarded by the field's shape); absent filter
selects every record; `get`, `query` (with the bound set to the store
size) and `delete` select records exactly by this predicate, on every
store whose embedding and metadata mappings share their key set and whose
metadata ids are unique (every Python dict state satisfying the store
invariant). -/
theorem filter_semantics (S : Store) (w : Filter) (q : List ℝ)
    (incl : Option (List String))
    (h2 : keys S.embeddings = keys S.metadatas)
    (h3 : (keys S.metadatas).Nodup) :
    FilterSemanticsSpec S w q incl := by
  refine ⟨matches_filter_iff_amended, ?_, ?_, ?_, ?_, ?_, ?_⟩
  · show (S.metadatas.filter fun p => selectedBy none p.2).map Prod.fst = keys S.metadatas
    rw [show (fun p : String × Metadata => selectedBy none p.2) = fun _ => true from rfl]
    rw [List.filter_true]
    rfl
  · rfl
  · intro id
    exact query_ids_mem S [q] (some w) h2 id
  · intro id
    rw [query_ids_mem S [q] none h2 id]
    rw [show (fun p : String × Metadata => selectedBy none p.2) = fun _ => true from rfl]
    rw [List.filter_true]
    rfl
  · show S.metadatas.filter _ = _
    apply List.filter_congr
    intro p hp
    have hlk : S.metadatas.lookup p.1 = some p.2 :=
      lookup_eq_some_of_nodup _ _ _ h3 hp
    by_cases hm : matches_filter p.2 w = true
    · have hct : ((S.metadatas.filter fun p => matches_filter p.2 w).map Prod.fst).contains p.1 = true :=
        (contains_iff_mem _ _).2
          (List.mem_map_of_mem Prod.fst (List.mem_filter.2 ⟨hp, hm⟩))
      rw [hct, hm]
    · have hmf : matches_filter p.2 w = false := by
        cases hx : matches_filter p.2 w
        · rfl
        · exact absurd hx hm
      have hcf : ((S.metadatas.filter fun p => matches_filter p.2 w).map Prod.fst).contains p.1 = false := by
        cases hx : ((S.metadatas.filter fun p => matches_filter p.2 w).map Prod.fst).contains p.1
        · rfl
        · exfalso
          obtain ⟨p2, hp2, hpid⟩ := List.mem_map.1 ((contains_iff_mem _ _).1 hx)
          obtain ⟨hp2m, hp2f⟩ := List.mem_filter.1 hp2
          have hlk2 : S.metadatas.lookup p2.1 = some p2.2 :=
            lookup_eq_some_of_nodup _ _ _ h3 hp2m
          rw [hpid, hlk] at hlk2
          injection hlk2 with heq
          rw [← heq, hmf] at hp2f
          exact Bool.false_ne_true hp2f
      rw [hcf, hmf]
  · show ((S.metadatas.filter fun p => matches_filter p.2 w).map Prod.fst).length = _
    exact List.length_map _ _

theorem filter_semantics_witness :
    keys demoStore.embeddings = keys demoStore.metadatas ∧
    (keys demoStore.metadatas).Nodup ∧
    FilterSemanticsSpec demoStore xFilter [1, 0] none :=
  ⟨rfl, by decide, filter_semantics demoStore xFilter [1, 0] none rfl (by decide)⟩


end TraceBridge
